import Mathlib

/-!
Shallow embedding of the Prechelt phone-number-encoding program
(`src/rust/phone_encoder/src/main.rs`) and verification of its
specification claims.

Modelling conventions:
* Rust `&str` / `String` values are `List Char` (`word.chars()` is the list).
* Digits (`u8` in the source, always in `0..=9`) are `Nat`.
* The `HashMap<Vec<u8>, Vec<String>>` dictionary is an association list;
  lookups are by key, and per-bucket insertion order is preserved exactly
  as `entry().or_insert_with(Vec::new).push(word)` preserves it.  The hash
  map's own iteration order is never observed by the program.
* `write_translations` interleaves its search with output; here the search
  (`translations`) returns the list of emitted decompositions in emission
  order, and rendering to output lines (`render_line`) is separate.  Tokens
  are tagged (`Token.word` / `Token.lit`) to state the claims; the program
  only ever inspects a token's rendered string, and so does the embedding
  (`tokenStr`).
* The recursion of `write_translations` is embedded with an explicit fuel
  argument initialised to `digits.length`; every recursive call consumes at
  least one digit, so the out-of-fuel branch is unreachable (claim C8).
* Rust's `char::to_ascii_lowercase` coincides with Lean's `Char.toLower`
  (ASCII `A`..`Z` shifted by 32, identity elsewhere).
* Rust's `char::is_numeric` is modelled by `Char.isDigit`.  The two agree on
  every string the program tests with it: literal-digit tokens are single
  ASCII digits, and every dictionary word reachable as a token contains an
  ASCII letter (non-numeric under both).
* `digit_to_str` slices the constant `"0123456789"`; the byte slicing that
  would panic out of bounds is modelled by `take`/`drop`, and claim C10
  shows indices are always in bounds (result length 1).
-/

namespace Phone

/-- The arms of the `match` in `alpha_char_to_digit` (`main.rs` lines
132-144), as a chain of equality tests on the already lower-cased
character. -/
def alpha_table (c : Char) : Option Nat :=
  if c = 'e' then some 0
  else if c = 'j' ∨ c = 'n' ∨ c = 'q' then some 1
  else if c = 'r' ∨ c = 'w' ∨ c = 'x' then some 2
  else if c = 'd' ∨ c = 's' ∨ c = 'y' then some 3
  else if c = 'f' ∨ c = 't' then some 4
  else if c = 'a' ∨ c = 'm' then some 5
  else if c = 'c' ∨ c = 'i' ∨ c = 'v' then some 6
  else if c = 'b' ∨ c = 'k' ∨ c = 'u' then some 7
  else if c = 'l' ∨ c = 'o' ∨ c = 'p' then some 8
  else if c = 'g' ∨ c = 'h' ∨ c = 'z' then some 9
  else none

/-- `alpha_char_to_digit` (`main.rs` lines 131-145): the keypad table
applied to `ch.to_ascii_lowercase()` (which is `Char.toLower`). -/
def alpha_char_to_digit (ch : Char) : Option Nat :=
  alpha_table (Char.toLower ch)

/-- `numeric_char_to_digit` (`main.rs` lines 147-154): characters
`'0'..='9'` map to their value, everything else to `None`. -/
def numeric_char_to_digit (ch : Char) : Option Nat :=
  if '0' ≤ ch ∧ ch ≤ '9' then some (ch.toNat - '0'.toNat) else none

/-- `word_to_number` (`main.rs` lines 127-129): the digit key of a word. -/
def word_to_number (word : List Char) : List Nat :=
  word.filterMap alpha_char_to_digit

/-- The constant `"0123456789"` sliced by `digit_to_str`. -/
def digit_chars : List Char :=
  ['0', '1', '2', '3', '4', '5', '6', '7', '8', '9']

/-- `digit_to_str` (`main.rs` lines 101-103): the one-character string for a
digit, obtained by slicing `"0123456789"`.  Rust's panicking byte slice is
modelled by `take`/`drop`; C10 shows the index is always in bounds. -/
def digit_to_str (digit : Nat) : List Char :=
  (digit_chars.drop digit).take 1

/-- Model of Rust `char::is_numeric` (see the header comment: it agrees
with `Char.isDigit` on every string this program applies it to). -/
def char_is_numeric (c : Char) : Bool := c.isDigit

/-- The `Dictionary` type (`main.rs` line 7): digit key to the words sharing
it, bucket order = insertion order. -/
abbrev Dictionary := List (List Nat × List (List Char))

/-- `dict.get(n)` on the dictionary. -/
def dictGet (dict : Dictionary) (key : List Nat) : Option (List (List Char)) :=
  (dict.find? (fun e => e.1 = key)).map (fun e => e.2)

/-- `dict.entry(key).or_insert_with(Vec::new).push(word)`: append `word` to
the bucket for `key`, creating the bucket if absent. -/
def dictInsert : Dictionary → List Nat → List Char → Dictionary
  | [], key, word => [(key, [word])]
  | (k, ws) :: rest, key, word =>
    if k = key then (k, ws ++ [word]) :: rest
    else (k, ws) :: dictInsert rest key word

/-- `load_dict` (`main.rs` lines 105-117) restricted to its pure content:
fold the word list into the dictionary. -/
def load_dict (words : List (List Char)) : Dictionary :=
  words.foldl (fun dict word => dictInsert dict (word_to_number word) word) []

/-- A token of a decomposition: a dictionary word or a literal digit.
The program represents both as strings in the `Cons` accumulator; the tag
records which branch of `write_translations` produced the token. -/
inductive Token where
  | word (w : List Char)
  | lit (d : Nat)
deriving DecidableEq

/-- The string the program stores for a token (`&*word` for a dictionary
word, `digit_to_str(digits[0])` for a literal digit). -/
def tokenStr : Token → List Char
  | Token.word w => w
  | Token.lit d => digit_to_str d

/-- Whether a token is a literal digit. -/
def isLit : Token → Bool
  | Token.word _ => false
  | Token.lit _ => true

/-- The digits a token accounts for: the digit key of a word, the digit
itself for a literal. -/
def tokenDigits : Token → List Nat
  | Token.word w => word_to_number w
  | Token.lit d => [d]

/-- The digits a token sequence accounts for, in order. -/
def tokensDigits (toks : List Token) : List Nat :=
  toks.flatMap tokenDigits

/-- The `found_word` flag of `write_translations` (`main.rs` lines 54-72):
true iff some prefix of `digits` (length `i+1` for `i` ranging over the
loop) is a dictionary key with a nonempty bucket, i.e. the inner word loop
ran at least once. -/
def found_word (dict : Dictionary) (digits : List Nat) : Bool :=
  (List.range digits.length).any (fun i =>
    match dictGet dict (digits.take (i + 1)) with
    | some ws => !ws.isEmpty
    | none => false)

/-- The guard `words.map(|c| c.data.chars().all(char::is_numeric)).unwrap_or(false)`
(`main.rs` lines 74-76): does the most recent token render to an
all-numeric string? -/
def litGuard (words : List Token) : Bool :=
  (words.head?.map (fun t => (tokenStr t).all char_is_numeric)).getD false

/-- The recursion of `write_translations` (`main.rs` lines 42-91), with the
emitted decompositions returned in emission order.  `words` is the `Cons`
accumulator (most recent token first).  `fuel` makes the recursion
structural; it is initialised to `digits.length` in `translations` and every
call consumes at least one digit, so the `0, _ :: _` branch is unreachable. -/
def translationsF (dict : Dictionary) : Nat → List Nat → List Token → List (List Token)
  | _, [], words => [words.reverse]
  | 0, _ :: _, _ => []
  | fuel + 1, d :: ds, words =>
    (List.range (ds.length + 1)).flatMap (fun i =>
      match dictGet dict ((d :: ds).take (i + 1)) with
      | some ws =>
        ws.flatMap (fun w => translationsF dict fuel (ds.drop i) (Token.word w :: words))
      | none => [])
    ++ (if !found_word dict (d :: ds) && !litGuard words then
          translationsF dict fuel ds (Token.lit d :: words)
        else [])

/-- The decomposition search of `write_translations`: all emitted
decompositions for `digits`, in emission order. -/
def translations (dict : Dictionary) (digits : List Nat) (words : List Token) :
    List (List Token) :=
  translationsF dict digits.length digits words

/-- One output line (`main.rs` lines 49-52 and 93-99): the original number,
a colon, then each token preceded by a single space. -/
def render_line (num : List Char) (toks : List Token) : List Char :=
  num ++ ':' :: toks.flatMap (fun t => ' ' :: tokenStr t)

/-- `write_translations` viewed as a function from the number and its
filtered digits to the list of output lines. -/
def write_translations (dict : Dictionary) (num : List Char) (digits : List Nat) :
    List (List Char) :=
  (translations dict digits []).map (render_line num)

/-- The body of the per-number loop in `main` (`main.rs` lines 31-38):
filter the number's characters to digits and run the search. -/
def process_number (dict : Dictionary) (num : List Char) : List (List Char) :=
  write_translations dict num (num.filterMap numeric_char_to_digit)

/-- Well-formedness of a dictionary as produced by `load_dict`: every
bucket is nonempty and holds exactly words whose digit key is the bucket's
key. -/
def WFDict (dict : Dictionary) : Prop :=
  ∀ key ws, dictGet dict key = some ws →
    ws ≠ [] ∧ ∀ w ∈ ws, word_to_number w = key

/-! ### Basic facts about characters and digit keys -/

lemma char_le_iff {a b : Char} : a ≤ b ↔ a.toNat ≤ b.toNat := Iff.rfl

/-- `alpha_char_to_digit` looks only at the lower-cased character. -/
lemma alpha_congr (a b : Char) (h : Char.toLower a = Char.toLower b) :
    alpha_char_to_digit a = alpha_char_to_digit b := by
  unfold alpha_char_to_digit
  rw [h]

/-- A character that contributes to a digit key is not a numeric character:
the keypad table only accepts ASCII letters. -/
lemma alpha_not_numeric (c : Char) (k : Nat) (h : alpha_char_to_digit c = some k) :
    char_is_numeric c = false := by
  cases hx : char_is_numeric c with
  | false => rfl
  | true =>
    exfalso
    have hnum : 48 ≤ c.toNat ∧ c.toNat ≤ 57 := by
      simpa [char_is_numeric, Char.isDigit, UInt32.le_def, BitVec.le_def, Char.toNat] using hx
    have hlow : Char.toLower c = c := by
      simp only [Char.toLower]
      rw [if_neg]
      omega
    rw [alpha_char_to_digit, hlow] at h
    rw [alpha_table] at h
    rw [if_neg (by rintro rfl; simp at hnum)] at h
    rw [if_neg (by rintro (rfl | rfl | rfl) <;> simp at hnum)] at h
    rw [if_neg (by rintro (rfl | rfl | rfl) <;> simp at hnum)] at h
    rw [if_neg (by rintro (rfl | rfl | rfl) <;> simp at hnum)] at h
    rw [if_neg (by rintro (rfl | rfl) <;> simp at hnum)] at h
    rw [if_neg (by rintro (rfl | rfl) <;> simp at hnum)] at h
    rw [if_neg (by rintro (rfl | rfl | rfl) <;> simp at hnum)] at h
    rw [if_neg (by rintro (rfl | rfl | rfl) <;> simp at hnum)] at h
    rw [if_neg (by rintro (rfl | rfl | rfl) <;> simp at hnum)] at h
    rw [if_neg (by rintro (rfl | rfl | rfl) <;> simp at hnum)] at h
    exact Option.noConfusion h

/-- Every character of the sliced constant `"0123456789"` is numeric, so a
literal-digit token renders to an all-numeric string. -/
lemma lit_all_numeric (d : Nat) :
    (tokenStr (Token.lit d)).all char_is_numeric = true := by
  rw [List.all_eq_true]
  intro c hc
  have hmem : c ∈ digit_chars :=
    List.drop_subset _ _ (List.take_subset _ _ hc)
  fin_cases hmem <;> decide

/-- A word with a nonempty digit key contains an ASCII letter, hence does
not render to an all-numeric string. -/
lemma word_not_all_numeric (w : List Char) (h : word_to_number w ≠ []) :
    w.all char_is_numeric = false := by
  cases hx : w.all char_is_numeric with
  | false => rfl
  | true =>
    exfalso
    apply h
    rw [word_to_number, List.filterMap_eq_nil_iff]
    intro c hc
    cases ha : alpha_char_to_digit c with
    | none => rfl
    | some k =>
      have := alpha_not_numeric c k ha
      have := List.all_eq_true.mp hx c hc
      simp_all

lemma litGuard_lit (d : Nat) (acc : List Token) :
    litGuard (Token.lit d :: acc) = true := by
  simp [litGuard, lit_all_numeric]

lemma litGuard_word (w : List Char) (acc : List Token) (h : word_to_number w ≠ []) :
    litGuard (Token.word w :: acc) = false := by
  simp [litGuard, tokenStr, word_not_all_numeric w h]

/-- When the guard is false, the most recent token (if any) is not a
literal digit. -/
lemma head_not_lit_of_litGuard (words : List Token) (h : litGuard words = false)
    (t : Token) (ht : words.head? = some t) : isLit t = false := by
  cases t with
  | word w => rfl
  | lit d =>
    rw [litGuard, ht] at h
    simp [lit_all_numeric] at h

/-- Congruence for `flatMap` under a pointwise equality on members. -/
lemma flatMap_ext {α β : Type} (l : List α) (f g : α → List β)
    (h : ∀ x ∈ l, f x = g x) : l.flatMap f = l.flatMap g := by
  induction l with
  | nil => rfl
  | cons a t ih =>
    simp only [List.flatMap_cons]
    rw [h a (by simp), ih (fun x hx => h x (by simp [hx]))]

/-! ### The dictionary built by `load_dict` is well formed -/

lemma dictGet_insert_eq (dict : Dictionary) (key : List Nat) (w : List Char) :
    dictGet (dictInsert dict key w) key = some (((dictGet dict key).getD []) ++ [w]) := by
  induction dict with
  | nil => simp [dictGet, dictInsert, List.find?]
  | cons e rest ih =>
    obtain ⟨k, ws⟩ := e
    by_cases hk : k = key
    · subst hk
      simp [dictGet, dictInsert, List.find?]
    · simp only [dictInsert, if_neg hk]
      simp only [dictGet, List.find?] at ih ⊢
      rw [decide_eq_false hk]
      exact ih

lemma dictGet_insert_ne (dict : Dictionary) (key : List Nat) (w : List Char)
    (k' : List Nat) (h : k' ≠ key) :
    dictGet (dictInsert dict key w) k' = dictGet dict k' := by
  induction dict with
  | nil =>
    simp only [dictInsert, dictGet, List.find?]
    rw [decide_eq_false (fun he => h he.symm)]
  | cons e rest ih =>
    obtain ⟨k, ws⟩ := e
    by_cases hk : k = key
    · subst hk
      simp only [dictInsert, if_pos rfl, dictGet, List.find?]
      rw [decide_eq_false (fun he => h he.symm)]
    · simp only [dictInsert, if_neg hk]
      simp only [dictGet, List.find?] at ih ⊢
      cases hd : decide (k = k') <;> simp [hd, ih]

lemma WFDict_nil : WFDict [] := by
  intro key ws h
  simp [dictGet, List.find?] at h

lemma WFDict_insert (dict : Dictionary) (w : List Char) (h : WFDict dict) :
    WFDict (dictInsert dict (word_to_number w) w) := by
  intro key ws hget
  by_cases hk : key = word_to_number w
  · subst hk
    rw [dictGet_insert_eq] at hget
    cases hget
    constructor
    · simp
    · intro x hx
      rcases List.mem_append.mp hx with hx | hx
      · cases hd : dictGet dict (word_to_number w) with
        | none => rw [hd] at hx; simp at hx
        | some b =>
          rw [hd] at hx
          exact (h _ b hd).2 x hx
      · rcases List.mem_singleton.mp hx with rfl
        rfl
  · rw [dictGet_insert_ne _ _ _ _ hk] at hget
    exact h key ws hget

/-- The dictionary builder produces a well-formed dictionary. -/
lemma WFDict_load_dict (words : List (List Char)) : WFDict (load_dict words) := by
  rw [load_dict]
  generalize hstart : ([] : Dictionary) = start
  have h : WFDict start := by rw [← hstart]; exact WFDict_nil
  clear hstart
  induction words generalizing start with
  | nil => exact h
  | cons w rest ih => exact ih _ (WFDict_insert start w h)

/-! ### Soundness of the search: emitted decompositions cover the digits -/

/-- Every decomposition emitted by the search extends the reversed
accumulator with tokens whose digits are exactly the remaining digit
sequence, each token accounting for at least one digit. -/
lemma translationsF_sound (dict : Dictionary) (hdict : WFDict dict) :
    ∀ fuel digits acc toks, toks ∈ translationsF dict fuel digits acc →
      ∃ post, toks = acc.reverse ++ post ∧ tokensDigits post = digits ∧
        ∀ t ∈ post, tokenDigits t ≠ [] := by
  intro fuel
  induction fuel with
  | zero =>
    intro digits acc toks hmem
    cases digits with
    | nil =>
      simp only [translationsF, List.mem_singleton] at hmem
      exact ⟨[], by simp [hmem], by simp [tokensDigits], by simp⟩
    | cons d ds => simp [translationsF] at hmem
  | succ fuel ih =>
    intro digits acc toks hmem
    cases digits with
    | nil =>
      simp only [translationsF, List.mem_singleton] at hmem
      exact ⟨[], by simp [hmem], by simp [tokensDigits], by simp⟩
    | cons d ds =>
      simp only [translationsF] at hmem
      rcases List.mem_append.mp hmem with h | h
      · rw [List.mem_flatMap] at h
        obtain ⟨i, hi, h⟩ := h
        cases hdg : dictGet dict ((d :: ds).take (i + 1)) with
        | none => rw [hdg] at h; simp at h
        | some ws =>
          rw [hdg] at h
          rw [List.mem_flatMap] at h
          obtain ⟨w, hw, h⟩ := h
          obtain ⟨post', heq, hdig, hne⟩ := ih (ds.drop i) (Token.word w :: acc) toks h
          have hkey : word_to_number w = (d :: ds).take (i + 1) :=
            (hdict _ ws hdg).2 w hw
          refine ⟨Token.word w :: post', ?_, ?_, ?_⟩
          · rw [heq]
            simp
          · simp only [tokensDigits, List.flatMap_cons] at hdig ⊢
            rw [hdig, tokenDigits, hkey, List.take_succ_cons]
            simp [List.take_append_drop]
          · intro t ht
            rcases List.mem_cons.mp ht with rfl | ht
            · rw [tokenDigits, hkey, List.take_succ_cons]
              simp
            · exact hne t ht
      · cases hc : (!found_word dict (d :: ds) && !litGuard acc) with
        | false => rw [hc] at h; simp at h
        | true =>
          rw [hc] at h
          simp only [if_pos rfl] at h
          obtain ⟨post', heq, hdig, hne⟩ := ih ds (Token.lit d :: acc) toks h
          refine ⟨Token.lit d :: post', ?_, ?_, ?_⟩
          · rw [heq]
            simp
          · simp only [tokensDigits, List.flatMap_cons] at hdig ⊢
            rw [hdig, tokenDigits]
            simp
          · intro t ht
            rcases List.mem_cons.mp ht with rfl | ht
            · simp [tokenDigits]
            · exact hne t ht

/-- A token list in which every token accounts for at least one digit is no
longer than its digit sequence. -/
lemma length_le_tokensDigits (toks : List Token) (h : ∀ t ∈ toks, tokenDigits t ≠ []) :
    toks.length ≤ (tokensDigits toks).length := by
  induction toks with
  | nil => simp [tokensDigits]
  | cons t ts ih =>
    simp only [tokensDigits, List.flatMap_cons, List.length_append, List.length_cons]
    have h1 : 1 ≤ (tokenDigits t).length := by
      cases hk : tokenDigits t with
      | nil => exact absurd hk (h t (by simp))
      | cons a l => simp
    have h2 := ih (fun t' ht' => h t' (by simp [ht']))
    rw [tokensDigits] at h2
    omega

/-! ### Claim C1: tokens reconstruct the filtered digit sequence -/

/-- A dictionary used by several witnesses: the single word "e",
whose digit key is `[0]`. -/
def dictE : Dictionary := load_dict [['e']]

/-- C1: for every input number, every decomposition emitted by the search
reconstructs, token by token (digit key of each word, digit of each
literal), exactly the filtered digit sequence of the number. -/
theorem c1_tokens_reconstruct_digits (dict : Dictionary) (hdict : WFDict dict)
    (num : List Char) (toks : List Token)
    (hmem : toks ∈ translations dict (num.filterMap numeric_char_to_digit) []) :
    tokensDigits toks = num.filterMap numeric_char_to_digit := by
  obtain ⟨post, heq, hdig, -⟩ := translationsF_sound dict hdict _ _ _ _ hmem
  simp only [List.reverse_nil, List.nil_append] at heq
  rw [heq]
  exact hdig

/-- Witness for C1: number "101" against the dictionary containing "e". -/
theorem c1_witness :
    tokensDigits [Token.lit 1, Token.word ['e'], Token.lit 1] =
      List.filterMap numeric_char_to_digit ['1', '0', '1'] :=
  c1_tokens_reconstruct_digits dictE (WFDict_load_dict _) ['1', '0', '1'] _ (by decide)

/-! ### Claim C8: the search consumes at least one digit per step -/

/-- Any fuel of at least `digits.length` yields the same search result:
every recursive call strictly shortens the remaining digit sequence, so the
recursion is complete within that measure (the termination argument of the
Rust recursion). -/
lemma translationsF_fuel_irrel (dict : Dictionary) :
    ∀ f₁ f₂ digits acc, digits.length ≤ f₁ → digits.length ≤ f₂ →
      translationsF dict f₁ digits acc = translationsF dict f₂ digits acc := by
  intro f₁
  induction f₁ with
  | zero =>
    intro f₂ digits acc h₁ h₂
    cases digits with
    | nil => cases f₂ <;> simp [translationsF]
    | cons d ds => simp at h₁
  | succ f₁ ih =>
    intro f₂ digits acc h₁ h₂
    cases digits with
    | nil => cases f₂ <;> simp [translationsF]
    | cons d ds =>
      cases f₂ with
      | zero => simp at h₂
      | succ f₂ =>
        simp only [translationsF]
        simp only [List.length_cons] at h₁ h₂
        congr 1
        · refine flatMap_ext _ _ _ ?_
          intro i hi
          cases hdg : dictGet dict ((d :: ds).take (i + 1)) with
          | none => rfl
          | some ws =>
            refine flatMap_ext _ _ _ ?_
            intro w hw
            refine ih f₂ (ds.drop i) (Token.word w :: acc) ?_ ?_ <;>
              rw [List.length_drop] <;> omega
        · cases hc : (!found_word dict (d :: ds) && !litGuard acc) with
          | false => simp
          | true =>
            rw [if_pos rfl, if_pos rfl]
            refine ih f₂ ds (Token.lit d :: acc) ?_ ?_ <;> omega

/-- C8: the search terminates because every recursive call consumes at
least one digit: (i) running the recursion with any fuel of at least the
number of digits gives the same, complete result — the digit count is a
strictly decreasing measure; (ii) every token of every emitted
decomposition accounts for at least one digit, so no decomposition has
more tokens than digits. -/
theorem c8_search_consumes_digits (dict : Dictionary) (hdict : WFDict dict)
    (digits : List Nat) :
    (∀ fuel, digits.length ≤ fuel →
        translationsF dict fuel digits [] = translations dict digits []) ∧
    ∀ toks ∈ translations dict digits [],
      (∀ t ∈ toks, tokenDigits t ≠ []) ∧ toks.length ≤ digits.length := by
  constructor
  · intro fuel hf
    exact translationsF_fuel_irrel dict fuel digits.length digits [] hf le_rfl
  · intro toks hmem
    obtain ⟨post, heq, hdig, hne⟩ := translationsF_sound dict hdict _ _ _ _ hmem
    simp only [List.reverse_nil, List.nil_append] at heq
    subst heq
    refine ⟨hne, ?_⟩
    have h := length_le_tokensDigits toks hne
    rw [hdig] at h
    exact h

/-- Witness for C8 at the number "101" and the dictionary containing "e":
extra fuel changes nothing, and the emitted decomposition has at most three
tokens. -/
theorem c8_witness :
    translationsF dictE 7 [1, 0, 1] [] = translations dictE [1, 0, 1] [] ∧
      ([Token.lit 1, Token.word ['e'], Token.lit 1] : List Token).length ≤
        ([1, 0, 1] : List Nat).length :=
  ⟨(c8_search_consumes_digits dictE (WFDict_load_dict _) [1, 0, 1]).1 7 (by decide),
   ((c8_search_consumes_digits dictE (WFDict_load_dict _) [1, 0, 1]).2 _ (by decide)).2⟩

/-! ### Claims C2 and C4: literal digits are never adjacent -/

/-- The adjacency relation of C2: of two neighbouring tokens, at least one
is not a literal digit. -/
def notBothLits (a b : Token) : Prop := isLit a = false ∨ isLit b = false

/-- The accumulator invariant behind C2: if no two neighbouring tokens of
the accumulator are both literals, the same holds for every emitted
decomposition. -/
lemma translationsF_chain (dict : Dictionary) :
    ∀ fuel digits acc toks, List.Chain' notBothLits acc →
      toks ∈ translationsF dict fuel digits acc →
      List.Chain' notBothLits toks := by
  have hrev : ∀ acc : List Token, List.Chain' notBothLits acc →
      List.Chain' notBothLits acc.reverse := by
    intro acc hacc
    rw [List.chain'_reverse]
    exact hacc.imp (fun a b hab => hab.symm)
  intro fuel
  induction fuel with
  | zero =>
    intro digits acc toks hacc hmem
    cases digits with
    | nil =>
      simp only [translationsF, List.mem_singleton] at hmem
      rw [hmem]
      exact hrev acc hacc
    | cons d ds => simp [translationsF] at hmem
  | succ fuel ih =>
    intro digits acc toks hacc hmem
    cases digits with
    | nil =>
      simp only [translationsF, List.mem_singleton] at hmem
      rw [hmem]
      exact hrev acc hacc
    | cons d ds =>
      simp only [translationsF] at hmem
      rcases List.mem_append.mp hmem with h | h
      · rw [List.mem_flatMap] at h
        obtain ⟨i, hi, h⟩ := h
        cases hdg : dictGet dict ((d :: ds).take (i + 1)) with
        | none => rw [hdg] at h; simp at h
        | some ws =>
          rw [hdg] at h
          rw [List.mem_flatMap] at h
          obtain ⟨w, hw, h⟩ := h
          refine ih (ds.drop i) (Token.word w :: acc) toks ?_ h
          rw [List.chain'_cons']
          exact ⟨fun y _ => Or.inl rfl, hacc⟩
      · cases hc : (!found_word dict (d :: ds) && !litGuard acc) with
        | false => rw [hc] at h; simp at h
        | true =>
          rw [hc] at h
          simp only [if_pos rfl] at h
          have hguard : litGuard acc = false := by
            have hg := (Bool.and_eq_true _ _ |>.mp hc).2
            simpa using hg
          refine ih ds (Token.lit d :: acc) toks ?_ h
          rw [List.chain'_cons']
          refine ⟨fun y hy => Or.inr ?_, hacc⟩
          exact head_not_lit_of_litGuard acc hguard y hy

/-- C2: no decomposition emitted by the search contains two adjacent
literal-digit tokens (for any dictionary, well formed or not). -/
theorem c2_no_adjacent_literals (dict : Dictionary) (digits : List Nat)
    (toks : List Token) (hmem : toks ∈ translations dict digits []) :
    List.Chain' notBothLits toks :=
  translationsF_chain dict _ digits [] toks List.chain'_nil hmem

/-- Witness for C2: the decomposition of "101" against the dictionary
containing "e" alternates literal, word, literal. -/
theorem c2_witness :
    List.Chain' notBothLits [Token.lit 1, Token.word ['e'], Token.lit 1] :=
  c2_no_adjacent_literals dictE [1, 0, 1] _ (by decide)

/-- C4, counterexample: the decomposition of the number "101" against the
dictionary containing only the word "e" (digit key `[0]`) is emitted and
contains TWO literal digits, refuting "at most one literal digit as a
filler in the whole decomposition". -/
theorem c4_counterexample :
    [Token.lit 1, Token.word ['e'], Token.lit 1] ∈
        translations dictE (List.filterMap numeric_char_to_digit ['1', '0', '1']) []
      ∧ 2 ≤ List.countP isLit [Token.lit 1, Token.word ['e'], Token.lit 1] := by
  decide

/-- C4, amended: a decomposition may use several literal-digit fillers, but
never two adjacent ones: no emitted decomposition has two consecutive
literal tokens. -/
theorem c4_amended_no_adjacent_fillers (dict : Dictionary) (digits : List Nat)
    (toks pre post : List Token) (d₁ d₂ : Nat)
    (hmem : toks ∈ translations dict digits []) :
    toks ≠ pre ++ Token.lit d₁ :: Token.lit d₂ :: post := by
  intro he
  have hch := translationsF_chain dict _ digits [] toks List.chain'_nil hmem
  rw [he] at hch
  have h2 := (List.chain'_append.mp hch).2.1
  have hr := (List.chain'_cons.mp h2).1
  rcases hr with hr | hr <;> simp [isLit] at hr

/-- Witness for C4's amended claim at the number "0" with the empty
dictionary. -/
theorem c4_witness :
    [Token.lit 0] ≠ [] ++ Token.lit 0 :: Token.lit 0 :: ([] : List Token) :=
  c4_amended_no_adjacent_fillers (load_dict []) [0] [Token.lit 0] [] [] 0 0 (by decide)

/-! ### Claim C3: literals appear only where no word matches -/

/-- Invariant on the accumulator for C3: every literal token already chosen
was chosen at a position where no dictionary word matched any prefix.  The
accumulator holds the path in reverse, so for a literal `d` with `rpost`
the tokens chosen after it, the digit sequence remaining at its position
was `d` followed by the digits of `rpost` (in path order) and the digits
still to be consumed. -/
def lit_ok (dict : Dictionary) (acc : List Token) (digits : List Nat) : Prop :=
  ∀ rpost d rpre, acc = rpost ++ Token.lit d :: rpre →
    found_word dict (d :: (tokensDigits rpost.reverse ++ digits)) = false

lemma lit_ok_nil (dict : Dictionary) (digits : List Nat) : lit_ok dict [] digits := by
  intro rpost d rpre h
  cases rpost <;> simp at h

/-- Pushing a token preserves the C3 invariant, provided the token's digits
bridge the old and new remaining digit sequences, and — if the token is
itself a literal — no word matched at its position. -/
lemma lit_ok_push (dict : Dictionary) (acc : List Token) (digits digits' : List Nat)
    (t : Token) (h : lit_ok dict acc digits)
    (ht : tokenDigits t ++ digits' = digits)
    (hlit : ∀ d, t = Token.lit d → found_word dict (d :: digits') = false) :
    lit_ok dict (t :: acc) digits' := by
  intro rpost d₀ rpre hsplit
  cases rpost with
  | nil =>
    simp only [List.nil_append, List.cons.injEq] at hsplit
    obtain ⟨rfl, -⟩ := hsplit
    simpa [tokensDigits] using hlit d₀ rfl
  | cons t₀ rpost₀ =>
    simp only [List.cons_append, List.cons.injEq] at hsplit
    obtain ⟨rfl, hacc⟩ := hsplit
    have hold := h rpost₀ d₀ rpre hacc
    have hre : tokensDigits ((t :: rpost₀).reverse) =
        tokensDigits rpost₀.reverse ++ tokenDigits t := by
      simp [tokensDigits, List.flatMap_append]
    rw [hre, List.append_assoc, ht]
    exact hold

/-- Main C3 lemma: in every emitted decomposition, each literal token sits
at a position whose remaining digit sequence has no dictionary match of any
prefix length. -/
lemma translationsF_lit_ok (dict : Dictionary) (hdict : WFDict dict) :
    ∀ fuel digits acc, lit_ok dict acc digits →
      ∀ toks ∈ translationsF dict fuel digits acc,
        ∀ pre d post, toks = pre ++ Token.lit d :: post →
          found_word dict (d :: tokensDigits post) = false := by
  intro fuel
  induction fuel with
  | zero =>
    intro digits acc hacc toks hmem pre d post hsplit
    cases digits with
    | nil =>
      simp only [translationsF, List.mem_singleton] at hmem
      have hacc' : acc = post.reverse ++ Token.lit d :: pre.reverse := by
        have : acc = toks.reverse := by rw [hmem, List.reverse_reverse]
        rw [this, hsplit]
        simp
      have := hacc post.reverse d pre.reverse hacc'
      simpa using this
    | cons d' ds => simp [translationsF] at hmem
  | succ fuel ih =>
    intro digits acc hacc toks hmem pre d post hsplit
    cases digits with
    | nil =>
      simp only [translationsF, List.mem_singleton] at hmem
      have hacc' : acc = post.reverse ++ Token.lit d :: pre.reverse := by
        have : acc = toks.reverse := by rw [hmem, List.reverse_reverse]
        rw [this, hsplit]
        simp
      have := hacc post.reverse d pre.reverse hacc'
      simpa using this
    | cons d' ds =>
      simp only [translationsF] at hmem
      rcases List.mem_append.mp hmem with h | h
      · rw [List.mem_flatMap] at h
        obtain ⟨i, hi, h⟩ := h
        cases hdg : dictGet dict ((d' :: ds).take (i + 1)) with
        | none => rw [hdg] at h; simp at h
        | some ws =>
          rw [hdg] at h
          rw [List.mem_flatMap] at h
          obtain ⟨w, hw, h⟩ := h
          have hkey : word_to_number w = (d' :: ds).take (i + 1) :=
            (hdict _ ws hdg).2 w hw
          refine ih (ds.drop i) (Token.word w :: acc) ?_ toks h pre d post hsplit
          refine lit_ok_push dict acc _ _ _ hacc ?_ ?_
          · rw [tokenDigits, hkey, List.take_succ_cons, List.cons_append,
              List.take_append_drop]
          · intro d₀ hd₀
            exact Token.noConfusion hd₀
      · cases hc : (!found_word dict (d' :: ds) && !litGuard acc) with
        | false => rw [hc] at h; simp at h
        | true =>
          rw [hc] at h
          simp only [if_pos rfl] at h
          have hnf : found_word dict (d' :: ds) = false := by
            have hg := (Bool.and_eq_true _ _ |>.mp hc).1
            simpa using hg
          refine ih ds (Token.lit d' :: acc) ?_ toks h pre d post hsplit
          refine lit_ok_push dict acc _ _ _ hacc rfl ?_
          intro d₀ hd₀
          cases hd₀
          exact hnf

/-- C3: if any dictionary word matches a prefix (of any length) of the
remaining digits at some position, then no emitted decomposition places a
literal-digit token at that position.  The remaining digit sequence at the
literal's position is the literal's digit followed by the digits of the
tokens after it. -/
theorem c3_no_literal_where_word_matches (dict : Dictionary) (hdict : WFDict dict)
    (digits : List Nat) (toks : List Token) (hmem : toks ∈ translations dict digits [])
    (pre post : List Token) (d : Nat) (hsplit : toks = pre ++ Token.lit d :: post) :
    found_word dict (d :: tokensDigits post) = false :=
  translationsF_lit_ok dict hdict _ digits [] (lit_ok_nil dict digits)
    toks hmem pre d post hsplit

/-- Witness for C3: in the decomposition of "101" against the dictionary
containing "e", the first literal sits at a position (remaining digits
`[1,0,1]`) with no dictionary match. -/
theorem c3_witness :
    found_word dictE (1 :: tokensDigits [Token.word ['e'], Token.lit 1]) = false :=
  c3_no_literal_where_word_matches dictE (WFDict_load_dict _) [1, 0, 1] _ (by decide)
    [] [Token.word ['e'], Token.lit 1] 1 rfl

/-! ### Claim C5: "00" with an empty dictionary -/

/-- C5, counterexample: running the engine on the number string "00" with
an empty dictionary does NOT emit the single line "00: 0 0"; after the
first literal digit the second position may not use another literal
(adjacent literals are forbidden), so nothing is emitted. -/
theorem c5_counterexample :
    process_number (load_dict []) ['0', '0'] ≠ [['0', '0', ':', ' ', '0', ' ', '0']] := by
  decide

/-- C5, amended: running the engine on the number string "00" with an empty
dictionary emits no output lines at all — the only candidate decomposition
would place two literal digits next to each other, which the search
forbids. -/
theorem c5_amended_empty_dict_00 :
    process_number (load_dict []) ['0', '0'] = [] := by
  decide

/-! ### Claim C9: numbers with no digit characters -/

/-- C9: for every dictionary and every input number string with no digit
characters, the engine emits exactly one output line: the original string,
a colon, and no tokens. -/
theorem c9_no_digits_one_empty_line (dict : Dictionary) (num : List Char)
    (h : ∀ c ∈ num, numeric_char_to_digit c = none) :
    process_number dict num = [num ++ [':']] := by
  have hdig : num.filterMap numeric_char_to_digit = [] :=
    List.filterMap_eq_nil_iff.mpr h
  simp [process_number, write_translations, translations, hdig, translationsF, render_line]

/-- Witness for C9 at the all-punctuation number made of a dash and a
slash. -/
theorem c9_witness :
    process_number (load_dict []) ['-', '/'] = [['-', '/'] ++ [':']] :=
  c9_no_digits_one_empty_line (load_dict []) ['-', '/'] (by decide)

/-! ### Claim C10: literal digits are always in bounds -/

/-- C10: every digit of the filtered digit sequence of an input number lies
in `0..=9`, so the slice of "0123456789" taken by `digit_to_str` is in
bounds and yields a one-character string. -/
theorem c10_filtered_digits_in_bounds (num : List Char) (d : Nat)
    (hd : d ∈ num.filterMap numeric_char_to_digit) :
    d < 10 ∧ (digit_to_str d).length = 1 := by
  obtain ⟨c, -, hc⟩ := List.mem_filterMap.mp hd
  rw [numeric_char_to_digit] at hc
  split_ifs at hc with hrange
  · obtain ⟨h0, h9⟩ := hrange
    rw [char_le_iff] at h0 h9
    have e0 : Char.toNat '0' = 48 := by decide
    have e9 : Char.toNat '9' = 57 := by decide
    rw [e0] at h0 hc
    rw [e9] at h9
    have hd10 : d < 10 := by
      cases hc
      omega
    refine ⟨hd10, ?_⟩
    rw [digit_to_str, List.length_take, List.length_drop]
    have hlen : digit_chars.length = 10 := by decide
    rw [hlen]
    omega

/-- Witness for C10 at the number "7". -/
theorem c10_witness : (7 : Nat) < 10 ∧ (digit_to_str 7).length = 1 :=
  c10_filtered_digits_in_bounds ['7'] 7 (by decide)

/-! ### Claim C6: properties of the digit key -/

/-- C6: the digit key of a word (i) maps each ASCII letter — in either case
— to its fixed keypad digit, (ii) depends only on the word's characters up
to ASCII lower-casing (case-insensitivity), (iii) is unchanged by inserting
or removing a non-letter character, and (iv) depends only on the letters of
the word. -/
theorem c6_digit_key_properties :
    (alpha_char_to_digit 'e' = some 0 ∧ alpha_char_to_digit 'E' = some 0
      ∧ alpha_char_to_digit 'j' = some 1 ∧ alpha_char_to_digit 'J' = some 1
      ∧ alpha_char_to_digit 'n' = some 1 ∧ alpha_char_to_digit 'N' = some 1
      ∧ alpha_char_to_digit 'q' = some 1 ∧ alpha_char_to_digit 'Q' = some 1
      ∧ alpha_char_to_digit 'r' = some 2 ∧ alpha_char_to_digit 'R' = some 2
      ∧ alpha_char_to_digit 'w' = some 2 ∧ alpha_char_to_digit 'W' = some 2
      ∧ alpha_char_to_digit 'x' = some 2 ∧ alpha_char_to_digit 'X' = some 2
      ∧ alpha_char_to_digit 'd' = some 3 ∧ alpha_char_to_digit 'D' = some 3
      ∧ alpha_char_to_digit 's' = some 3 ∧ alpha_char_to_digit 'S' = some 3
      ∧ alpha_char_to_digit 'y' = some 3 ∧ alpha_char_to_digit 'Y' = some 3
      ∧ alpha_char_to_digit 'f' = some 4 ∧ alpha_char_to_digit 'F' = some 4
      ∧ alpha_char_to_digit 't' = some 4 ∧ alpha_char_to_digit 'T' = some 4
      ∧ alpha_char_to_digit 'a' = some 5 ∧ alpha_char_to_digit 'A' = some 5
      ∧ alpha_char_to_digit 'm' = some 5 ∧ alpha_char_to_digit 'M' = some 5
      ∧ alpha_char_to_digit 'c' = some 6 ∧ alpha_char_to_digit 'C' = some 6
      ∧ alpha_char_to_digit 'i' = some 6 ∧ alpha_char_to_digit 'I' = some 6
      ∧ alpha_char_to_digit 'v' = some 6 ∧ alpha_char_to_digit 'V' = some 6
      ∧ alpha_char_to_digit 'b' = some 7 ∧ alpha_char_to_digit 'B' = some 7
      ∧ alpha_char_to_digit 'k' = some 7 ∧ alpha_char_to_digit 'K' = some 7
      ∧ alpha_char_to_digit 'u' = some 7 ∧ alpha_char_to_digit 'U' = some 7
      ∧ alpha_char_to_digit 'l' = some 8 ∧ alpha_char_to_digit 'L' = some 8
      ∧ alpha_char_to_digit 'o' = some 8 ∧ alpha_char_to_digit 'O' = some 8
      ∧ alpha_char_to_digit 'p' = some 8 ∧ alpha_char_to_digit 'P' = some 8
      ∧ alpha_char_to_digit 'g' = some 9 ∧ alpha_char_to_digit 'G' = some 9
      ∧ alpha_char_to_digit 'h' = some 9 ∧ alpha_char_to_digit 'H' = some 9
      ∧ alpha_char_to_digit 'z' = some 9 ∧ alpha_char_to_digit 'Z' = some 9)
    ∧ (∀ w₁ w₂ : List Char, w₁.map Char.toLower = w₂.map Char.toLower →
        word_to_number w₁ = word_to_number w₂)
    ∧ (∀ c : Char, alpha_char_to_digit c = none →
        ∀ l₁ l₂ : List Char, word_to_number (l₁ ++ c :: l₂) = word_to_number (l₁ ++ l₂))
    ∧ (∀ w : List Char,
        word_to_number w = word_to_number (w.filter (fun c => (alpha_char_to_digit c).isSome))) := by
  refine ⟨?_, ?_, ?_, ?_⟩
  · repeat' apply And.intro
    all_goals decide
  · intro w₁ w₂ hmap
    simp only [word_to_number]
    induction w₁ generalizing w₂ with
    | nil =>
      cases w₂ with
      | nil => rfl
      | cons b t₂ => simp at hmap
    | cons a t₁ ih =>
      cases w₂ with
      | nil => simp at hmap
      | cons b t₂ =>
        simp only [List.map_cons, List.cons.injEq] at hmap
        obtain ⟨hab, ht⟩ := hmap
        simp only [List.filterMap_cons]
        rw [alpha_congr a b hab]
        have ht' := ih t₂ ht
        cases alpha_char_to_digit b <;> simp [ht']
  · intro c hc l₁ l₂
    simp [word_to_number, List.filterMap_append, List.filterMap_cons, hc]
  · intro w
    induction w with
    | nil => rfl
    | cons a t ih =>
      simp only [word_to_number, List.filterMap_cons, List.filter_cons] at ih ⊢
      cases ha : alpha_char_to_digit a with
      | none => simp [ha, ih]
      | some k => simp [ha, List.filterMap_cons, ih]

/-! ### Claim C7: output order is exactly the spec's order

The spec (§4.2) prescribes: at each branch point, prefix lengths
`L = 1..remaining length` ascending; within one prefix length, the words of
the bucket in word-list order; branches depth-first; the literal fallback
only after all prefix lengths, and only when no word matched and the
previous token was not a literal.  `spec_translations` below transcribes
those words directly (forward path, explicit last-was-literal flag); the
theorem shows the program's search emits exactly that sequence. -/

/-- Specification-side "at least one word-match was attempted": some prefix
length `L = 1..remaining length` keys a nonempty bucket. -/
def spec_found (dict : Dictionary) (digits : List Nat) : Bool :=
  (List.range' 1 digits.length).any (fun L =>
    match dictGet dict (digits.take L) with
    | some ws => !ws.isEmpty
    | none => false)

/-- Specification-side enumeration of decompositions, transcribed from
§4.2's recursive step: state is the remaining digits, the tokens chosen so
far in path order, and the flag recording whether the last token was a
literal digit.  Step 1 emits at exhaustion; step 2 tries prefix lengths
`L = 1..remaining length` ascending, bucket words in order, depth-first;
steps 3-4 append one literal digit only if no word matched here and the
flag is clear. -/
def spec_translationsF (dict : Dictionary) :
    Nat → List Nat → List Token → Bool → List (List Token)
  | _, [], path, _ => [path]
  | 0, _ :: _, _, _ => []
  | fuel + 1, d :: ds, path, lastLit =>
    (List.range' 1 (d :: ds).length).flatMap (fun L =>
      match dictGet dict ((d :: ds).take L) with
      | some ws => ws.flatMap (fun w =>
          spec_translationsF dict fuel ((d :: ds).drop L) (path ++ [Token.word w]) false)
      | none => [])
    ++ (if spec_found dict (d :: ds) || lastLit then []
        else spec_translationsF dict fuel ds (path ++ [Token.lit d]) true)

/-- The spec-side enumeration, started like the engine: empty path, flag
clear ("first position counts as previous not literal"). -/
def spec_translations (dict : Dictionary) (digits : List Nat) : List (List Token) :=
  spec_translationsF dict digits.length digits [] false

lemma spec_found_eq (dict : Dictionary) (digits : List Nat) :
    spec_found dict digits = found_word dict digits := by
  rw [spec_found, found_word, List.range'_eq_map_range, List.any_map]
  congr 1
  funext i
  simp only [Function.comp]
  rw [Nat.add_comm 1 i]

/-- The engine's search produces exactly the spec-side enumeration, with
the path kept in reverse and the last-was-literal flag realised as the
all-numeric test on the most recent token. -/
lemma spec_eq_translationsF (dict : Dictionary) (hdict : WFDict dict) :
    ∀ fuel digits acc lastLit, lastLit = litGuard acc →
      spec_translationsF dict fuel digits acc.reverse lastLit =
        translationsF dict fuel digits acc := by
  intro fuel
  induction fuel with
  | zero =>
    intro digits acc lastLit hll
    cases digits with
    | nil => simp [spec_translationsF, translationsF]
    | cons d ds => simp [spec_translationsF, translationsF]
  | succ fuel ih =>
    intro digits acc lastLit hll
    subst hll
    cases digits with
    | nil => simp [spec_translationsF, translationsF]
    | cons d ds =>
      simp only [spec_translationsF, translationsF]
      congr 1
      · rw [List.length_cons, List.range'_eq_map_range, List.flatMap_map]
        refine flatMap_ext _ _ _ ?_
        intro i hi
        rw [Nat.add_comm 1 i]
        cases hdg : dictGet dict ((d :: ds).take (i + 1)) with
        | none => rfl
        | some ws =>
          refine flatMap_ext _ _ _ ?_
          intro w hw
          have hkey : word_to_number w = (d :: ds).take (i + 1) :=
            (hdict _ ws hdg).2 w hw
          have hne : word_to_number w ≠ [] := by
            rw [hkey, List.take_succ_cons]
            simp
          rw [List.drop_succ_cons, ← List.reverse_cons]
          exact ih (ds.drop i) (Token.word w :: acc) false (litGuard_word w acc hne).symm
      · rw [spec_found_eq,
          show (!found_word dict (d :: ds) && !litGuard acc) =
            !(found_word dict (d :: ds) || litGuard acc) from by rw [Bool.not_or]]
        cases hfg : (found_word dict (d :: ds) || litGuard acc) with
        | true => simp
        | false =>
          rw [if_neg (by simp), if_pos (by simp)]
          rw [← List.reverse_cons]
          exact ih ds (Token.lit d :: acc) true (litGuard_lit d acc).symm

/-- C7: the output lines for a number appear in exactly the order the spec
prescribes — ascending prefix length at each branch point, bucket
(word-list) order within a prefix length, depth-first, literal fallback
last: the engine's emission sequence equals the spec-side enumeration. -/
theorem c7_output_order_matches_spec (dict : Dictionary) (hdict : WFDict dict)
    (digits : List Nat) :
    spec_translations dict digits = translations dict digits [] := by
  rw [spec_translations, translations]
  have h := spec_eq_translationsF dict hdict digits.length digits [] false rfl
  simpa using h

/-- Witness for C7 at the number "101" and the dictionary containing "e". -/
theorem c7_witness :
    spec_translations dictE [1, 0, 1] = translations dictE [1, 0, 1] [] :=
  c7_output_order_matches_spec dictE (WFDict_load_dict _) [1, 0, 1]

/-- Witness for C6: the digit key of "Tree" equals that of "tree", and
inserting the non-letter '-' into "Tree" does not change the key. -/
theorem c6_witness :
    word_to_number ['T', 'r', 'e', 'e'] = word_to_number ['t', 'r', 'e', 'e'] ∧
    word_to_number (['T'] ++ '-' :: ['r', 'e', 'e']) = word_to_number (['T'] ++ ['r', 'e', 'e']) :=
  ⟨c6_digit_key_properties.2.1 _ _ (by decide),
   c6_digit_key_properties.2.2.1 '-' (by decide) ['T'] ['r', 'e', 'e']⟩

end Phone
